import Mathlib

/-!
Shallow embedding of the WireWorld simulator (`__main__.py`).

The Python `World` class subclasses `collections.defaultdict` with default
factory `lambda: Void`: any read of an absent key *inserts* that key with
value `Void` and returns it.  We therefore embed the grid as an association
list `Table` (Python dicts keep insertion order and have unique keys), and
every dict read is the state-passing function `getitem` which returns the
value together with the possibly-grown dictionary.  The pure function `getD`
is the value part of a read; the lemmas below show every read only ever
materializes `Void` entries, so the value parts of all reads coincide with
`getD` on the original table.
-/

set_option autoImplicit false

namespace WireWorld

/-- The four cell states. In the source these are the classes `Void`, `Wire`,
`ElecHead`, `ElecTail` (singletons via the `Printable` metaclass); Python's
`is` comparison between them is equality of this type. -/
inductive Cell
  | Void
  | Wire
  | ElecHead
  | ElecTail
  deriving DecidableEq

/-- The four `next_state` class methods.
`Void.next_state` returns `Void`; `Wire.next_state` returns `ElecHead` when
`tuple(n is ElecHead for n in neighbors).count(True) in (1, 2)` and `Wire`
otherwise; `ElecHead.next_state` returns `ElecTail`; `ElecTail.next_state`
returns `Wire`. -/
def Cell.next_state (c : Cell) (neighbors : List Cell) : Cell :=
  match c with
  | .Void => .Void
  | .Wire =>
      let cnt := (neighbors.map (fun n => n == Cell.ElecHead)).count true
      if cnt = 1 ∨ cnt = 2 then .ElecHead else .Wire
  | .ElecHead => .ElecTail
  | .ElecTail => .Wire

/-- Grid coordinates `(x, y)` as used by `World`; `x` is the line index. -/
abbrev Coord := Int × Int

/-- The dictionary underlying a `World`, in Python insertion order. -/
abbrev Table := List (Coord × Cell)

/-- The value stored at key `c`, if `c` is an explicit key (first match;
keys of reachable tables are unique, as in a Python dict). -/
def lookup? (w : Table) (c : Coord) : Option Cell :=
  (w.find? (fun p => p.1 == c)).map Prod.snd

/-- The value a `defaultdict` read returns at `c`: the stored state, or the
default `Void` when `c` is not an explicit key. -/
def getD (w : Table) (c : Coord) : Cell :=
  (lookup? w c).getD .Void

/-- `world[c]` on the `defaultdict`: a present key returns its value and
leaves the dict alone; an absent key inserts `(c, Void)` (at the end, per
dict insertion order) and returns `Void`. -/
def getitem (w : Table) (c : Coord) : Cell × Table :=
  match lookup? w c with
  | some s => (s, w)
  | none => (.Void, w ++ [(c, .Void)])

/-- The 8 Moore offsets in the order produced by
`product((-1, 0, 1), repeat=2)` filtered by `j != 0 or i != 0`. -/
def offsets : List (Int × Int) :=
  ((([-1, 0, 1] : List Int).flatMap
      (fun i => ([-1, 0, 1] : List Int).map (fun j => (i, j)))).filter
    (fun p => p.2 != 0 || p.1 != 0))

/-- The reads performed by consuming the `World.neighbors` generator:
`world[x+i, y+j]` for each offset, threading the mutating dict. Returns the
yielded states in order together with the dict after the reads. -/
def neighborsAux (center : Coord) : List (Int × Int) → Table → List Cell × Table
  | [], w => ([], w)
  | off :: rest, w =>
    let r := getitem w (center.1 + off.1, center.2 + off.2)
    let q := neighborsAux center rest r.2
    (r.1 :: q.1, q.2)

/-- `World.neighbors(center)`, fully consumed (as `Wire.next_state` does). -/
def neighborsM (w : Table) (center : Coord) : List Cell × Table :=
  neighborsAux center offsets w

/-- Value-level reading of `World.neighbors`: the 8 neighbor states looked
up in the (unmutated) table, defaulting to `Void`.  `neighborsM` is proved
to return exactly these values. -/
def neighbors (w : Table) (center : Coord) : List Cell :=
  offsets.map (fun off => getD w (center.1 + off.1, center.2 + off.2))

/-- The dict comprehension of `World.next`, iterating over the snapshot
`tuple(world.items())` while the neighbor reads thread (and grow) the old
world's dict. Returns the new dict and the old dict after mutation. -/
def nextAux : List (Coord × Cell) → Table → Table × Table
  | [], w => ([], w)
  | p :: rest, w =>
    let r := neighborsM w p.1
    let q := nextAux rest r.2
    ((p.1, p.2.next_state r.1) :: q.1, q.2)

/-- `World.next`, at the dictionary level: the comprehension
`{coords: state.next_state(world.neighbors(coords)) for coords, state in tuple(world.items())}`.
First component: the new dict. Second component: the input dict after the
reads `World.next` performed on it. -/
def nextM (w : Table) : Table × Table :=
  nextAux w w

/-- Errors a `World` operation can raise. `valueError` is Python's built-in
`ValueError` (raised by `max()` on an empty sequence). `emptyGridError` is
the `EmptyGridError` of the spec's error taxonomy (§7); no such exception
class exists in the source, the constructor exists only so statements can
distinguish the two. -/
inductive PyError
  | valueError (msg : String)
  | emptyGridError (msg : String)
  deriving DecidableEq

/-- Python's built-in `max` over a sequence of ints: raises `ValueError` on
an empty sequence, otherwise the maximum. -/
def pymax : List Int → Except PyError Int
  | [] => .error (.valueError "max() arg is an empty sequence")
  | x :: xs => .ok (xs.foldl max x)

/-- `World.__maxcoords`: `(max(x for x, _ in keys), max(y for _, y in keys))`;
the first `max` is evaluated first and raises on an empty dict. -/
def maxcoords (w : Table) : Except PyError (Int × Int) :=
  match pymax (w.map (fun p => p.1.1)) with
  | .error e => .error e
  | .ok mx =>
    match pymax (w.map (fun p => p.1.2)) with
    | .error e => .error e
    | .ok my => .ok (mx, my)

/-- A constructed `World`: its dictionary and the `maxcoords` attribute
computed (and cached) by `__init__`. -/
structure World where
  table : Table
  maxcoords : Int × Int
  deriving DecidableEq

/-- `World.__init__` on a table that is already a `defaultdict`:
stores the table and eagerly computes `self.maxcoords`, raising (via
`max()`) when the table has no keys. -/
def mkWorld? (t : Table) : Except PyError World :=
  match maxcoords t with
  | .error e => .error e
  | .ok mc => .ok ⟨t, mc⟩

/-- `World.next`: builds the comprehension dict (`nextM`), then constructs a
new `World` from it. Also returns the old dict as mutated by the reads. -/
def World.next (W : World) : Except PyError (World × Table) :=
  let r := nextM W.table
  match mkWorld? r.1 with
  | .error e => .error e
  | .ok W' => .ok (W', r.2)

/-- Python `range(n)` as a list of ints. -/
def intRange (n : Int) : List Int :=
  (List.range n.toNat).map (fun (k : Nat) => (k : Int))

/-- The coordinates enumerated by `World.__iter__`:
`product(range(maxx+1), range(maxy+1))`, row-major with `x` outermost. -/
def boxCoords (maxx maxy : Int) : List Coord :=
  (intRange (maxx + 1)).flatMap (fun x => (intRange (maxy + 1)).map (fun y => (x, y)))

/-- The reads performed by fully consuming the `World.__iter__` generator:
each bounding-box coordinate is read with `world[x, y]`, threading the
mutating dict. -/
def iterAux : List Coord → Table → List (Coord × Cell) × Table
  | [], w => ([], w)
  | c :: rest, w =>
    let r := getitem w c
    let q := iterAux rest r.2
    ((c, r.1) :: q.1, q.2)

/-- `World.__iter__` (the basis of the spec's `iterate`), fully consumed;
uses the cached `maxcoords` attribute. -/
def iterM (W : World) : List (Coord × Cell) × Table :=
  iterAux (boxCoords W.maxcoords.1 W.maxcoords.2) W.table

/-- `any(state is ElecHead for _, state in world)`: pulls elements from the
`__iter__` generator, stopping (short-circuit) at the first `ElecHead`. -/
def haveCurrentAux : Table → List Coord → Bool × Table
  | w, [] => (false, w)
  | w, c :: rest =>
    let r := getitem w c
    if r.1 == Cell.ElecHead then (true, r.2) else haveCurrentAux r.2 rest

/-- The `World.have_current` property (the spec's `has_current`). -/
def have_currentM (W : World) : Bool × Table :=
  haveCurrentAux W.table (boxCoords W.maxcoords.1 W.maxcoords.2)

/-! ### The loader (`World.read`, `World.__tabletodict`) -/

/-- `CHAR_VOID = ' '`. -/
def CHAR_VOID : Char := ' '

/-- `CHAR_WIRE = '\N{FULL BLOCK}'` (U+2588). -/
def CHAR_WIRE : Char := '█'

/-- `CHAR_HEAD = '\N{MEDIUM SHADE}'` (U+2592). -/
def CHAR_HEAD : Char := '▒'

/-- `CHAR_TAIL = CHAR_WIRE` ("dont show electron tails"). -/
def CHAR_TAIL : Char := CHAR_WIRE

/-- `CHARS_VOID = CHAR_VOID + '  '`. -/
def CHARS_VOID : List Char := [CHAR_VOID, ' ', ' ']

/-- `CHARS_WIRE = CHAR_WIRE + '#@%'`. -/
def CHARS_WIRE : List Char := [CHAR_WIRE, '#', '@', '%']

/-- `CHARS_HEAD = CHAR_HEAD + '+?)>'`. -/
def CHARS_HEAD : List Char := [CHAR_HEAD, '+', '?', ')', '>']

/-- `CHARS_TAIL = CHAR_TAIL + '-.(<'`; note its first character is
`CHAR_WIRE`. -/
def CHARS_TAIL : List Char := [CHAR_TAIL, '-', '.', '(', '<']

/-- The `(letter, cls)` assignments made, in order, by the `wireclass` dict
comprehension in `World.read`: the rows `(Wire, CHARS_WIRE)`,
`(Void, CHARS_VOID)`, `(ElecHead, CHARS_HEAD)`, `(ElecTail, CHARS_TAIL)`,
each row's letters in order. -/
def wireclassPairs : List (Char × Cell) :=
  ([(Cell.Wire, CHARS_WIRE), (Cell.Void, CHARS_VOID),
    (Cell.ElecHead, CHARS_HEAD), (Cell.ElecTail, CHARS_TAIL)]).flatMap
    (fun p => p.2.map (fun ch => (ch, p.1)))

/-- The `wireclass` dict as a function: in a dict comprehension a later
assignment to the same key overwrites an earlier one, so the dict's value
at `ch` is the *last* pair with key `ch` — the first match in the reversed
assignment list. Characters not assigned (e.g. newline) are absent
(`char in wireclass` is false, so they are skipped by the loader). -/
def wireclass (ch : Char) : Option Cell :=
  (wireclassPairs.reverse.find? (fun p => p.1 == ch)).map Prod.snd

/-- The `tupleworld` built by `World.read` from the file's lines:
`tuple(tuple(wireclass[char] for char in line if char in wireclass) for line in fd)`. -/
def tupleworld (lines : List (List Char)) : List (List Cell) :=
  lines.map (fun line => line.filterMap wireclass)

/-- One row of the `World.__tabletodict` comprehension: the entries
`((x, y), row[y])` for `y` counting up from `y0`. -/
def tabletodictRow (x : Int) : Int → List Cell → Table
  | _, [] => []
  | y, s :: rest => ((x, y), s) :: tabletodictRow x (y + 1) rest

/-- The rows of the `World.__tabletodict` comprehension for `x` counting up
from `x0`. -/
def tabletodictFrom : Int → List (List Cell) → Table
  | _, [] => []
  | x, row :: rest => tabletodictRow x 0 row ++ tabletodictFrom (x + 1) rest

/-- `World.__tabletodict`:
`{(x, y): table[x][y] for x in range(len(table)) for y in range(len(table[x]))}`,
keys in comprehension order. -/
def tabletodict (table : List (List Cell)) : Table :=
  tabletodictFrom 0 table

/-- `World.read`, with the opened file replaced by the list of its lines
(each a list of characters). -/
def read (lines : List (List Char)) : Except PyError World :=
  mkWorld? (tabletodict (tupleworld lines))

/-- `w` reads like `t`: the defaultdict value returned at every coordinate
agrees. Reads of a world preserve this relation to the original table,
because the only entries they insert hold the default value `Void`. -/
def Preserves (t w : Table) : Prop :=
  ∀ c, getD w c = getD t c

/-! ### Reads return the default-completed value and only materialize `Void` -/

theorem preserves_refl (t : Table) : Preserves t t := fun _ => rfl

theorem getitem_fst (w : Table) (c : Coord) : (getitem w c).1 = getD w c := by
  unfold getitem getD
  cases h : lookup? w c <;> simp [h]

theorem lookup?_append (w1 w2 : Table) (c : Coord) :
    lookup? (w1 ++ w2) c = (lookup? w1 c).or (lookup? w2 c) := by
  unfold lookup?
  rw [List.find?_append]
  cases List.find? (fun p => p.1 == c) w1 <;> simp

theorem lookup?_singleton (c d : Coord) (s : Cell) :
    lookup? [(c, s)] d = if c = d then some s else none := by
  by_cases h : c = d
  · simp [lookup?, List.find?, h]
  · have hb : (c == d) = false := by simpa using h
    simp [lookup?, List.find?, hb, h]

theorem getitem_snd_preserves {t w : Table} (h : Preserves t w) (c : Coord) :
    Preserves t (getitem w c).2 := by
  unfold getitem
  cases hl : lookup? w c with
  | some s => exact h
  | none =>
    intro d
    rw [← h d]
    unfold getD
    rw [lookup?_append, lookup?_singleton]
    by_cases hdc : c = d
    · subst hdc
      rw [hl]
      simp
    · cases hld : lookup? w d <;> simp [hdc]

theorem getitem_fst_eq {t w : Table} (h : Preserves t w) (c : Coord) :
    (getitem w c).1 = getD t c := by
  rw [getitem_fst, h]

theorem neighborsAux_spec (center : Coord) (offs : List (Int × Int)) :
    ∀ {t w : Table}, Preserves t w →
      (neighborsAux center offs w).1
          = offs.map (fun off => getD t (center.1 + off.1, center.2 + off.2)) ∧
      Preserves t (neighborsAux center offs w).2 := by
  induction offs with
  | nil => exact fun h => ⟨rfl, h⟩
  | cons off rest ih =>
    intro t w h
    have h2 := getitem_snd_preserves h (center.1 + off.1, center.2 + off.2)
    have hr := ih h2
    simp only [neighborsAux, List.map_cons]
    exact ⟨by rw [getitem_fst_eq h, hr.1], hr.2⟩

theorem neighborsM_spec {t w : Table} (h : Preserves t w) (center : Coord) :
    (neighborsM w center).1 = neighbors t center ∧
    Preserves t (neighborsM w center).2 :=
  neighborsAux_spec center offsets h

theorem nextAux_spec (items : List (Coord × Cell)) :
    ∀ {t w : Table}, Preserves t w →
      (nextAux items w).1
          = items.map (fun p => (p.1, p.2.next_state (neighbors t p.1))) ∧
      Preserves t (nextAux items w).2 := by
  induction items with
  | nil => exact fun h => ⟨rfl, h⟩
  | cons p rest ih =>
    intro t w h
    have hn := neighborsM_spec h p.1
    have hr := ih hn.2
    simp only [nextAux, List.map_cons]
    exact ⟨by rw [hn.1, hr.1], hr.2⟩

theorem iterAux_spec (cs : List Coord) :
    ∀ {t w : Table}, Preserves t w →
      (iterAux cs w).1 = cs.map (fun c => (c, getD t c)) ∧
      Preserves t (iterAux cs w).2 := by
  induction cs with
  | nil => exact fun h => ⟨rfl, h⟩
  | cons c rest ih =>
    intro t w h
    have h2 := getitem_snd_preserves h c
    have hr := ih h2
    simp only [iterAux, List.map_cons]
    exact ⟨by rw [getitem_fst_eq h, hr.1], hr.2⟩

theorem haveCurrentAux_spec (cs : List Coord) :
    ∀ {t w : Table}, Preserves t w →
      ((haveCurrentAux w cs).1 = true ↔ ∃ c ∈ cs, getD t c = Cell.ElecHead) ∧
      Preserves t (haveCurrentAux w cs).2 := by
  induction cs with
  | nil =>
    intro t w h
    exact ⟨by simp [haveCurrentAux], h⟩
  | cons c rest ih =>
    intro t w h
    have h2 := getitem_snd_preserves h c
    have hr := ih h2
    simp only [haveCurrentAux, getitem_fst_eq h]
    by_cases hg : getD t c = Cell.ElecHead
    · have hb : (getD t c == Cell.ElecHead) = true := by simpa using hg
      rw [if_pos hb]
      exact ⟨iff_of_true rfl ⟨c, List.mem_cons_self c rest, hg⟩, h2⟩
    · have hb : (getD t c == Cell.ElecHead) = false := by
        simpa using hg
      rw [if_neg (by simp [hb])]
      refine ⟨?_, hr.2⟩
      rw [hr.1]
      simp only [List.mem_cons]
      constructor
      · rintro ⟨d, hd, hdh⟩
        exact ⟨d, Or.inr hd, hdh⟩
      · rintro ⟨d, hd | hd, hdh⟩
        · exact absurd (hd ▸ hdh) hg
        · exact ⟨d, hd, hdh⟩

/-! ### `max` over a sequence, `maxcoords` -/

theorem foldl_max_le (xs : List Int) :
    ∀ x y, y ∈ x :: xs → y ≤ xs.foldl max x := by
  induction xs with
  | nil =>
    intro x y hy
    rw [List.mem_singleton] at hy
    simp [hy]
  | cons z zs ih =>
    intro x y hy
    have hstep : ∀ u, u ≤ max x z → u ≤ (z :: zs).foldl max x := by
      intro u hu
      calc u ≤ max x z := hu
        _ ≤ zs.foldl max (max x z) := ih (max x z) _ (List.mem_cons_self _ _)
    rcases List.mem_cons.mp hy with h | h
    · exact hstep y (h ▸ le_max_left x z)
    · rcases List.mem_cons.mp h with h2 | h2
      · exact hstep y (h2 ▸ le_max_right x z)
      · exact ih (max x z) y (List.mem_cons.mpr (Or.inr h2))

theorem foldl_max_mem (xs : List Int) : ∀ x, xs.foldl max x ∈ x :: xs := by
  induction xs with
  | nil => intro x; simp
  | cons z zs ih =>
    intro x
    rw [List.foldl_cons]
    rcases List.mem_cons.mp (ih (max x z)) with h | h
    · rcases max_choice x z with hm | hm
      · exact List.mem_cons.mpr (Or.inl (h.trans hm))
      · exact List.mem_cons.mpr (Or.inr (List.mem_cons.mpr (Or.inl (h.trans hm))))
    · exact List.mem_cons.mpr (Or.inr (List.mem_cons.mpr (Or.inr h)))

theorem pymax_spec {l : List Int} {m : Int} (h : pymax l = .ok m) :
    (∀ y ∈ l, y ≤ m) ∧ m ∈ l := by
  cases l with
  | nil => simp [pymax] at h
  | cons x xs =>
    have hm : xs.foldl max x = m := by simpa [pymax] using h
    subst hm
    exact ⟨fun y hy => foldl_max_le xs x y hy, foldl_max_mem xs x⟩

theorem maxcoords_spec {t : Table} {mx my : Int} (h : maxcoords t = .ok (mx, my)) :
    (∀ p ∈ t, p.1.1 ≤ mx ∧ p.1.2 ≤ my) ∧
    (∃ p ∈ t, p.1.1 = mx) ∧ (∃ p ∈ t, p.1.2 = my) := by
  unfold maxcoords at h
  cases hx : pymax (t.map fun p => p.1.1) with
  | error e => rw [hx] at h; cases h
  | ok vx =>
    rw [hx] at h
    cases hy : pymax (t.map fun p => p.1.2) with
    | error e => rw [hy] at h; cases h
    | ok vy =>
      rw [hy] at h
      have hxy : vx = mx ∧ vy = my := by
        have : (vx, vy) = (mx, my) := by injection h
        exact ⟨congrArg Prod.fst this, congrArg Prod.snd this⟩
      obtain ⟨rfl, rfl⟩ := hxy
      have hX := pymax_spec hx
      have hY := pymax_spec hy
      refine ⟨fun p hp => ⟨?_, ?_⟩, ?_, ?_⟩
      · exact hX.1 _ (List.mem_map_of_mem _ hp)
      · exact hY.1 _ (List.mem_map_of_mem _ hp)
      · obtain ⟨p, hp, he⟩ := List.mem_map.mp hX.2
        exact ⟨p, hp, he⟩
      · obtain ⟨p, hp, he⟩ := List.mem_map.mp hY.2
        exact ⟨p, hp, he⟩

theorem maxcoords_ok_of_ne_nil {t : Table} (h : t ≠ []) :
    ∃ mc, maxcoords t = .ok mc := by
  cases t with
  | nil => exact absurd rfl h
  | cons p rest => exact ⟨_, rfl⟩

/-! ### Association-list lookup, unique keys -/

theorem mem_of_lookup?_eq_some {t : Table} {c : Coord} {s : Cell}
    (h : lookup? t c = some s) : (c, s) ∈ t := by
  unfold lookup? at h
  cases hf : t.find? (fun p => p.1 == c) with
  | none => rw [hf] at h; cases h
  | some q =>
    rw [hf] at h
    have hq1 : q.1 = c := by simpa using List.find?_some hf
    have hq2 : q.2 = s := by simpa using h
    have hmem := List.mem_of_find?_eq_some hf
    obtain ⟨q1, q2⟩ := q
    cases hq1
    cases hq2
    exact hmem

theorem lookup?_eq_some_of_mem_nodup {t : Table} (hnd : (t.map Prod.fst).Nodup)
    {c : Coord} {s : Cell} (hm : (c, s) ∈ t) : lookup? t c = some s := by
  induction t with
  | nil => cases hm
  | cons p rest ih =>
    rw [List.map_cons, List.nodup_cons] at hnd
    rcases List.mem_cons.mp hm with h | h
    · cases h.symm
      unfold lookup?
      rw [List.find?_cons_of_pos _ (by simp)]
      rfl
    · have hne : p.1 ≠ c := by
        intro he
        exact hnd.1 (he ▸ List.mem_map_of_mem Prod.fst h)
      unfold lookup?
      rw [List.find?_cons_of_neg _ (by simpa using hne)]
      exact ih hnd.2 h

theorem getD_eq_head_iff {t : Table} {c : Coord} :
    getD t c = Cell.ElecHead ↔ lookup? t c = some Cell.ElecHead := by
  unfold getD
  cases h : lookup? t c with
  | none => simp
  | some s => simp

/-! ### The bounding-box enumeration -/

theorem mem_intRange {n a : Int} : a ∈ intRange n ↔ 0 ≤ a ∧ a < n := by
  unfold intRange
  rw [List.mem_map]
  constructor
  · rintro ⟨k, hk, rfl⟩
    rw [List.mem_range] at hk
    omega
  · rintro ⟨h0, hn⟩
    exact ⟨a.toNat, by rw [List.mem_range]; omega, by omega⟩

theorem mem_boxCoords {maxx maxy : Int} {c : Coord} :
    c ∈ boxCoords maxx maxy ↔ (0 ≤ c.1 ∧ c.1 ≤ maxx) ∧ (0 ≤ c.2 ∧ c.2 ≤ maxy) := by
  obtain ⟨x, y⟩ := c
  unfold boxCoords
  simp only [List.mem_flatMap, List.mem_map]
  constructor
  · rintro ⟨x', hx', y', hy', h⟩
    have hx := mem_intRange.mp hx'
    have hy := mem_intRange.mp hy'
    have h1 : x' = x := congrArg Prod.fst h
    have h2 : y' = y := congrArg Prod.snd h
    subst h1; subst h2
    constructor <;> omega
  · rintro ⟨⟨h1, h2⟩, h3, h4⟩
    exact ⟨x, mem_intRange.mpr ⟨h1, by omega⟩, y, mem_intRange.mpr ⟨h3, by omega⟩, rfl⟩

/-! ### Coordinates assigned by `__tabletodict` -/

theorem lookup?_cons_self (c : Coord) (s : Cell) (rest : Table) :
    lookup? ((c, s) :: rest) c = some s := by
  unfold lookup?
  rw [List.find?_cons_of_pos _ (by simp)]
  rfl

theorem lookup?_cons_ne {p : Coord × Cell} {c : Coord} (h : p.1 ≠ c) (rest : Table) :
    lookup? (p :: rest) c = lookup? rest c := by
  unfold lookup?
  rw [List.find?_cons_of_neg _ (by simpa using h)]

theorem lookup?_tabletodictRow_ne {x : Int} (row : List Cell) {c : Coord}
    (h : c.1 ≠ x) : ∀ y0 : Int, lookup? (tabletodictRow x y0 row) c = none := by
  induction row with
  | nil => intro y0; rfl
  | cons s rest ih =>
    intro y0
    have hne : (((x, y0), s) : Coord × Cell).1 ≠ c := fun he => h (by rw [← he])
    rw [tabletodictRow, lookup?_cons_ne hne]
    exact ih (y0 + 1)

theorem lookup?_tabletodictRow (x : Int) (row : List Cell) :
    ∀ (y0 : Int) (k : Nat), lookup? (tabletodictRow x y0 row) (x, y0 + (k : Int))
      = row[k]? := by
  induction row with
  | nil => intro y0 k; rfl
  | cons s rest ih =>
    intro y0 k
    cases k with
    | zero =>
      rw [tabletodictRow, show ((x, y0 + ((0 : Nat) : Int)) : Coord) = (x, y0) by simp,
        lookup?_cons_self]
      simp
    | succ j =>
      have hne : (((x, y0), s) : Coord × Cell).1 ≠ (x, y0 + ((j + 1 : Nat) : Int)) := by
        intro he
        have := congrArg Prod.snd he
        simp at this
        omega
      rw [tabletodictRow, lookup?_cons_ne hne]
      have hco : ((x, y0 + ((j + 1 : Nat) : Int)) : Coord) = (x, (y0 + 1) + (j : Int)) := by
        rw [Prod.mk.injEq]
        constructor
        · rfl
        · push_cast
          ring
      rw [hco, ih (y0 + 1) j]
      simp

theorem lookup?_tabletodictFrom_ne (t : List (List Cell)) :
    ∀ (x0 : Int) (c : Coord), c.1 < x0 → lookup? (tabletodictFrom x0 t) c = none := by
  induction t with
  | nil => intro x0 c _; rfl
  | cons row rest ih =>
    intro x0 c h
    show lookup? (tabletodictRow x0 0 row ++ tabletodictFrom (x0 + 1) rest) c = none
    rw [lookup?_append, lookup?_tabletodictRow_ne row (by omega) 0,
      ih (x0 + 1) c (by omega)]
    rfl

theorem lookup?_tabletodictFrom (t : List (List Cell)) :
    ∀ (x0 : Int) (x y : Nat),
      lookup? (tabletodictFrom x0 t) (x0 + (x : Int), (y : Int))
        = t[x]?.bind (fun row => row[y]?) := by
  induction t with
  | nil => intro x0 x y; rfl
  | cons row rest ih =>
    intro x0 x y
    show lookup? (tabletodictRow x0 0 row ++ tabletodictFrom (x0 + 1) rest) _ = _
    rw [lookup?_append]
    cases x with
    | zero =>
      have hco : ((x0 + ((0 : Nat) : Int), (y : Int)) : Coord) = (x0, (0 : Int) + (y : Int)) := by
        rw [Prod.mk.injEq]
        constructor <;> simp
      rw [hco, lookup?_tabletodictRow x0 row 0 y,
        lookup?_tabletodictFrom_ne rest (x0 + 1) _ (by simp)]
      cases hr : row[y]? <;> simp [hr]
    | succ j =>
      rw [lookup?_tabletodictRow_ne row (by simp; omega) 0]
      have hco : ((x0 + ((j + 1 : Nat) : Int), (y : Int)) : Coord)
          = ((x0 + 1) + (j : Int), (y : Int)) := by
        rw [Prod.mk.injEq]
        constructor
        · push_cast
          ring
        · rfl
      rw [hco, ih (x0 + 1) j y]
      simp

theorem lookup?_tabletodict (t : List (List Cell)) (x y : Nat) :
    lookup? (tabletodict t) ((x : Int), (y : Int)) = t[x]?.bind (fun row => row[y]?) := by
  have h := lookup?_tabletodictFrom t 0 x y
  rw [show ((0 : Int) + (x : Int), (y : Int)) = (((x : Int), (y : Int)) : Coord) by
    rw [Prod.mk.injEq]; constructor <;> simp] at h
  exact h

/-! ### The loader's character mapping -/

theorem getElem?_filterMap_filter {α β : Type} (f : α → Option β) (l : List α) :
    ∀ (y : Nat) (a : α), (l.filter (fun b => (f b).isSome))[y]? = some a →
      (l.filterMap f)[y]? = f a := by
  induction l with
  | nil => intro y a h; simp at h
  | cons b rest ih =>
    intro y a h
    cases hfb : f b with
    | none =>
      rw [List.filter_cons_of_neg (by simp [hfb])] at h
      rw [List.filterMap_cons_none hfb]
      exact ih y a h
    | some v =>
      rw [List.filter_cons_of_pos (by simp [hfb])] at h
      rw [List.filterMap_cons_some hfb]
      cases y with
      | zero =>
        have hb : b = a := by simpa using h
        rw [← hb, hfb]
        simp
      | succ j =>
        simp only [List.getElem?_cons_succ] at h ⊢
        exact ih j a h

/-! ### Counting `ElecHead` neighbors -/

theorem count_true_map_head (ns : List Cell) :
    (ns.map (fun n => n == Cell.ElecHead)).count true = ns.count Cell.ElecHead := by
  induction ns with
  | nil => rfl
  | cons a l ih => cases a <;> simp [List.count_cons, ih]

/-! ## The claims -/

/-- C1: the dict built by `World.next` on grid `G` has exactly the explicit
keys of `G` (in order — the comprehension iterates the snapshot
`tuple(world.items())` taken before any computation), and maps each such
coordinate `c` to `next_state(G[c], neighbors(G, c))`, where every neighbor
lookup returns the value the step-N snapshot `G` holds at that coordinate
(absent coordinates reading as the default `Void`) and the partially built
new dict is never consulted. -/
theorem step_is_snapshot_map (t : Table) :
    (nextM t).1 = t.map (fun p => (p.1, p.2.next_state (neighbors t p.1))) :=
  (nextAux_spec t (preserves_refl t)).1

/-- C2: `next_state` is total and pure: `Void` always yields `Void`,
`ElecHead` always yields `ElecTail`, `ElecTail` always yields `Wire`, and
`Wire` yields `ElecHead` exactly when the number of `ElecHead` values among
the neighbor states is 1 or 2, and `Wire` otherwise. -/
theorem next_state_cases (ns : List Cell) :
    Cell.next_state .Void ns = .Void ∧
    Cell.next_state .ElecHead ns = .ElecTail ∧
    Cell.next_state .ElecTail ns = .Wire ∧
    (Cell.next_state .Wire ns
      = if ns.count Cell.ElecHead = 1 ∨ ns.count Cell.ElecHead = 2
        then .ElecHead else .Wire) ∧
    (Cell.next_state .Wire ns = .ElecHead
      ↔ (ns.count Cell.ElecHead = 1 ∨ ns.count Cell.ElecHead = 2)) := by
  have h4 : Cell.next_state .Wire ns
      = if ns.count Cell.ElecHead = 1 ∨ ns.count Cell.ElecHead = 2
        then .ElecHead else .Wire := by
    simp only [Cell.next_state, count_true_map_head]
  refine ⟨rfl, rfl, rfl, h4, ?_⟩
  rw [h4]
  by_cases h : ns.count Cell.ElecHead = 1 ∨ ns.count Cell.ElecHead = 2
  · simp [h]
  · simp [h]

/-- C3, counterexample: stepping the one-conductor grid `{(0,0): Wire}`
does *not* leave the input dict unchanged — the neighbor reads materialize
the 8 surrounding coordinates as explicit `Void` entries (defaultdict
`__missing__`), so the explicit key set grows. -/
theorem step_mutates_input :
    (nextM [((0, 0), Cell.Wire)]).2 ≠ [((0, 0), Cell.Wire)] := by
  decide

/-- C3, amended: although `step`, `iterate` and `has_current` may add
explicit entries to the grid they read, every entry they add holds the
default `Void`, so the grid is unchanged as a mapping from coordinates to
states: every defaultdict lookup returns the same state before and after
the call (and the cached `maxcoords` attribute is untouched). -/
theorem reads_do_not_change_states (W : World) (c : Coord) :
    getD (nextM W.table).2 c = getD W.table c ∧
    getD (iterM W).2 c = getD W.table c ∧
    getD (have_currentM W).2 c = getD W.table c :=
  ⟨(nextAux_spec W.table (preserves_refl W.table)).2 c,
   (iterAux_spec _ (preserves_refl W.table)).2 c,
   (haveCurrentAux_spec _ (preserves_refl W.table)).2 c⟩

/-- C4, counterexample: loading the single line `"█"` (the filled-block
glyph) produces a cell in state `ElecTail`, not `Conductor`: in the
`wireclass` dict comprehension the `CHARS_TAIL` row (whose first character
is `CHAR_TAIL = CHAR_WIRE`) is processed after the `CHARS_WIRE` row and
overwrites its entry for the filled block. -/
theorem loader_fullblock_is_tail :
    tabletodict (tupleworld [['█']]) = [((0, 0), Cell.ElecTail)] ∧
    Cell.ElecTail ≠ Cell.Wire := by
  decide

/-- C4, amended: the loader stores, at coordinate
`(line_index, column_index_among_recognized_chars)`, the state `wireclass`
assigns to that character; the filled-block glyph maps to `ElecTail` (the
tail row overwrites the conductor row's entry for it), the remaining
conductor symbols `#`, `@`, `%` map to `Wire`, and the tail-only symbols
`-`, `.`, `(`, `<` map to `ElecTail`. -/
theorem loader_assignment (lines : List (List Char)) (x y : Nat)
    (line : List Char) (ch : Char)
    (hline : lines[x]? = some line)
    (hch : (line.filter (fun c => (wireclass c).isSome))[y]? = some ch) :
    lookup? (tabletodict (tupleworld lines)) ((x : Int), (y : Int)) = wireclass ch ∧
    wireclass '█' = some Cell.ElecTail ∧
    wireclass '#' = some Cell.Wire ∧ wireclass '@' = some Cell.Wire ∧
    wireclass '%' = some Cell.Wire ∧
    wireclass '-' = some Cell.ElecTail ∧ wireclass '.' = some Cell.ElecTail ∧
    wireclass '(' = some Cell.ElecTail ∧ wireclass '<' = some Cell.ElecTail := by
  refine ⟨?_, by decide, by decide, by decide, by decide, by decide, by decide,
    by decide, by decide⟩
  rw [lookup?_tabletodict]
  have ht : (tupleworld lines)[x]? = some (line.filterMap wireclass) := by
    unfold tupleworld
    rw [List.getElem?_map, hline]
    rfl
  rw [ht]
  show (line.filterMap wireclass)[y]? = wireclass ch
  exact getElem?_filterMap_filter wireclass line y ch hch

/-- Witness for the amended C4, at the single line `"█"`. -/
theorem loader_assignment_witness :
    lookup? (tabletodict (tupleworld [['█']])) ((0 : Int), (0 : Int)) = wireclass '█' ∧
    wireclass '█' = some Cell.ElecTail ∧
    wireclass '#' = some Cell.Wire ∧ wireclass '@' = some Cell.Wire ∧
    wireclass '%' = some Cell.Wire ∧
    wireclass '-' = some Cell.ElecTail ∧ wireclass '.' = some Cell.ElecTail ∧
    wireclass '(' = some Cell.ElecTail ∧ wireclass '<' = some Cell.ElecTail :=
  loader_assignment [['█']] 0 0 ['█'] '█' (by decide) (by decide)

/-- C5: on a grid with zero explicit keys, `World.__maxcoords` fails with
Python's built-in `ValueError` raised by `max()` on an empty sequence — not
with the `EmptyGridError` the spec's error taxonomy names (no such
exception class exists in the source). -/
theorem maxcoords_empty_raises_valueerror :
    maxcoords ([] : Table)
      = Except.error (PyError.valueError "max() arg is an empty sequence") :=
  rfl

/-- C6: stepping never introduces an explicit key that was not already
present: the explicit key set of the dict built by `World.next` is exactly
(in particular, contained in) the explicit key set of the input grid. -/
theorem step_never_adds_keys (t : Table) (c : Coord) :
    c ∈ (nextM t).1.map Prod.fst ↔ c ∈ t.map Prod.fst := by
  unfold nextM
  rw [(nextAux_spec t (preserves_refl t)).1]
  simp [List.mem_map]

/-- C7, counterexample: `have_current` only scans the bounding box
`[0..maxx] × [0..maxy]`, so on the constructible grid `{(-1,-1): ElecHead}`
(whose `maxcoords` is `(-1,-1)`, giving an empty scan) it returns `False`
even though a stored cell is an `ElecHead`. -/
theorem have_current_misses_negative_head :
    mkWorld? [(((-1 : Int), (-1 : Int)), Cell.ElecHead)]
      = Except.ok ⟨[(((-1 : Int), (-1 : Int)), Cell.ElecHead)], (-1, -1)⟩ ∧
    (have_currentM ⟨[(((-1 : Int), (-1 : Int)), Cell.ElecHead)], (-1, -1)⟩).1 = false ∧
    getD [(((-1 : Int), (-1 : Int)), Cell.ElecHead)] ((-1 : Int), (-1 : Int))
      = Cell.ElecHead := by
  refine ⟨rfl, by decide, by decide⟩

/-- C7, amended: for every successfully constructed world all of whose
stored coordinates are nonnegative (as is the case for every world built by
the loader), `have_current` is true iff some explicitly stored cell is an
`ElecHead`; in particular it is false on an all-`Wire` grid. -/
theorem have_current_iff_stored_head (t : Table) (W : World)
    (hW : mkWorld? t = Except.ok W)
    (hnd : (t.map Prod.fst).Nodup)
    (hpos : ∀ p ∈ t, 0 ≤ p.1.1 ∧ 0 ≤ p.1.2) :
    ((have_currentM W).1 = true ↔ ∃ c : Coord, (c, Cell.ElecHead) ∈ t) := by
  unfold mkWorld? at hW
  cases hmc : maxcoords t with
  | error e => rw [hmc] at hW; cases hW
  | ok mc =>
    rw [hmc] at hW
    have hWt : W = ⟨t, mc⟩ := by injection hW with h; exact h.symm
    subst hWt
    obtain ⟨mx, my⟩ := mc
    have hms := maxcoords_spec hmc
    have hmain := (haveCurrentAux_spec (boxCoords mx my) (preserves_refl t)).1
    show (haveCurrentAux t (boxCoords mx my)).1 = true ↔ _
    rw [hmain]
    constructor
    · rintro ⟨c, hcbox, hcd⟩
      exact ⟨c, mem_of_lookup?_eq_some (getD_eq_head_iff.mp hcd)⟩
    · rintro ⟨c, hc⟩
      refine ⟨c, ?_, getD_eq_head_iff.mpr (lookup?_eq_some_of_mem_nodup hnd hc)⟩
      have h1 := hpos _ hc
      have h2 := hms.1 _ hc
      exact mem_boxCoords.mpr ⟨⟨h1.1, h2.1⟩, h1.2, h2.2⟩

/-- Witness for the amended C7, on the one-head grid `{(0,0): ElecHead}`. -/
theorem have_current_iff_stored_head_witness :
    ((have_currentM ⟨[((0, 0), Cell.ElecHead)], (0, 0)⟩).1 = true
      ↔ ∃ c : Coord, (c, Cell.ElecHead) ∈ [((0, 0), Cell.ElecHead)]) :=
  have_current_iff_stored_head [((0, 0), Cell.ElecHead)]
    ⟨[((0, 0), Cell.ElecHead)], (0, 0)⟩ rfl (by decide) (by decide)

/-- C8: fully consuming `World.neighbors(c)` yields exactly 8 states, one
per offset `(dx, dy) ∈ {-1,0,1}² minus (0,0)` in the fixed deterministic
`itertools.product` order, each being the grid's value at `(x+dx, y+dy)` —
the stored state if that coordinate is an explicit key and `Void`
otherwise. -/
theorem neighbors_eight_offsets (w : Table) (c : Coord) :
    (neighborsM w c).1
        = offsets.map (fun off => getD w (c.1 + off.1, c.2 + off.2)) ∧
    offsets = [(-1, -1), (-1, 0), (-1, 1), (0, -1), (0, 1), (1, -1), (1, 0), (1, 1)] ∧
    (neighborsM w c).1.length = 8 := by
  have h : (neighborsM w c).1 = neighbors w c := (neighborsM_spec (preserves_refl w) c).1
  refine ⟨h, by decide, ?_⟩
  rw [h]
  unfold neighbors
  rw [List.length_map]
  decide

/-- C9: one step of the 1×3 strip
`{(0,0): Wire, (0,1): ElecHead, (0,2): ElecTail}` yields
`{(0,0): ElecHead, (0,1): ElecTail, (0,2): Wire}`. -/
theorem strip_scenario :
    (nextM [((0, 0), Cell.Wire), ((0, 1), Cell.ElecHead), ((0, 2), Cell.ElecTail)]).1
      = [((0, 0), Cell.ElecHead), ((0, 1), Cell.ElecTail), ((0, 2), Cell.Wire)] := by
  decide

/-- C10: `World.__init__` computes the bounding box eagerly, so constructing
from a table with zero explicit coordinates raises at construction time
(last conjunct); every successfully constructed world stores its table,
which is nonempty and has the defined `maxcoords`; and stepping a
constructed world succeeds and preserves nonemptiness. -/
theorem construction_is_eager (t : Table) (W : World)
    (h : mkWorld? t = Except.ok W) :
    W.table = t ∧ t ≠ [] ∧ maxcoords t = Except.ok W.maxcoords ∧
    (nextM t).1 ≠ [] ∧ (World.next W).toOption ≠ none ∧
    mkWorld? ([] : Table)
      = Except.error (PyError.valueError "max() arg is an empty sequence") := by
  unfold mkWorld? at h
  cases hmc : maxcoords t with
  | error e => rw [hmc] at h; cases h
  | ok mc =>
    rw [hmc] at h
    have hW : W = ⟨t, mc⟩ := by injection h with h'; exact h'.symm
    subst hW
    have htne : t ≠ [] := by
      intro he
      subst he
      simp [maxcoords, pymax] at hmc
    have hkeys : (nextM t).1 = t.map (fun p => (p.1, p.2.next_state (neighbors t p.1))) :=
      (nextAux_spec t (preserves_refl t)).1
    have hne2 : (nextM t).1 ≠ [] := by
      rw [hkeys]
      simpa using htne
    obtain ⟨mc2, hmc2⟩ := maxcoords_ok_of_ne_nil hne2
    refine ⟨rfl, htne, rfl, hne2, ?_, rfl⟩
    simp [World.next, mkWorld?, hmc2, Except.toOption]

/-- Witness for C10, at the one-conductor grid `{(0,0): Wire}`. -/
theorem construction_is_eager_witness :
    (⟨[((0, 0), Cell.Wire)], (0, 0)⟩ : World).table = [((0, 0), Cell.Wire)] ∧
    ([((0, 0), Cell.Wire)] : Table) ≠ [] ∧
    maxcoords [((0, 0), Cell.Wire)]
      = Except.ok (⟨[((0, 0), Cell.Wire)], (0, 0)⟩ : World).maxcoords ∧
    (nextM [((0, 0), Cell.Wire)]).1 ≠ [] ∧
    (World.next ⟨[((0, 0), Cell.Wire)], (0, 0)⟩).toOption ≠ none ∧
    mkWorld? ([] : Table)
      = Except.error (PyError.valueError "max() arg is an empty sequence") :=
  construction_is_eager [((0, 0), Cell.Wire)] ⟨[((0, 0), Cell.Wire)], (0, 0)⟩ rfl

end WireWorld
